import Mathlib

/-!
Verification of the queue-based email-extraction service (`server.js`).

The pure extraction functions (`extractEmails`, `extractFacebookUrls`)
are embedded at the character level, reproducing the JavaScript regex
scans (leftmost match, greedy quantifiers with backtracking, global
continuation after each match).  The job lifecycle (`updateJobStatus`,
`processJob`), the worker pool (`JobWorker.processNextBatch`) and the
polling route (`GET /job/:jobId`) are embedded as explicit state
transformers over a job-record type.
-/

namespace EmailExtraction

/-! ### Character classes used by the regexes in `server.js` -/

def backslashChar : Char := Char.ofNat 92

def singleQuoteChar : Char := Char.ofNat 39

def isAsciiUpper (c : Char) : Bool := 'A' ≤ c && c ≤ 'Z'

/-- ASCII lowercasing, as performed by the `i` regex flag and
`String.prototype.toLowerCase` on the ASCII inputs involved here. -/
def lowerAscii (c : Char) : Char :=
  if isAsciiUpper c then Char.ofNat (c.toNat + 32) else c

/-- Case-insensitive comparison of an input character against a
(lowercase) pattern character. -/
def lcEq (c pat : Char) : Bool := lowerAscii c == pat

def isAlphaChar (c : Char) : Bool := ('a' ≤ c && c ≤ 'z') || ('A' ≤ c && c ≤ 'Z')

def isDigitChar (c : Char) : Bool := '0' ≤ c && c ≤ '9'

/-- `[a-zA-Z0-9._%+-]`, the local-part class of the email regexes. -/
def isEmailLocalChar (c : Char) : Bool :=
  isAlphaChar c || isDigitChar c || c == '.' || c == '_' || c == '%' || c == '+' || c == '-'

/-- `[a-zA-Z0-9.-]`, the domain class of the email regexes. -/
def isEmailDomainChar (c : Char) : Bool :=
  isAlphaChar c || isDigitChar c || c == '.' || c == '-'

/-- `[a-zA-Z0-9._-]`, the path-segment class of the Facebook URL regex. -/
def isFbPathChar (c : Char) : Bool :=
  isAlphaChar c || isDigitChar c || c == '.' || c == '_' || c == '-'

/-- The `\s` class of the JavaScript regexes, on the character range
relevant to this code base (ASCII whitespace plus NBSP). -/
def isJsWs (c : Char) : Bool :=
  c == ' ' || c == '\t' || c == '\n' || c == '\r' ||
  c == Char.ofNat 11 || c == Char.ofNat 12 || c == Char.ofNat 160

def isQuoteChar (c : Char) : Bool := c == '"' || c == singleQuoteChar

/-- The characters that can appear anywhere in a match of the Facebook
URL regex (path-segment class plus the scheme/host/query literals);
notably, neither `\` nor whitespace qualifies. -/
def fbUrlOkChar (c : Char) : Bool :=
  isFbPathChar c || c == ':' || c == '/' || c == '?' || c == '='

/-! ### `[...new Set(xs)]` : JavaScript `Set` insertion-order dedup -/

def jsSetAdd (seen : List String) (x : String) : List String :=
  if seen.contains x then seen else seen ++ [x]

/-- `[...new Set(xs)]`: deduplication keeping first occurrences in order. -/
def jsSetOfList (xs : List String) : List String := xs.foldl jsSetAdd []

/-! ### `html.replace(/<[^>]*>/g, ' ').replace(/\s+/g, ' ').trim()` -/

/-- Index of the first `>` in the list, if any. -/
def findGt : List Char → Option Nat
  | [] => none
  | c :: cs => if c == '>' then some 0 else (findGt cs).map (· + 1)

/-- `html.replace(/<[^>]*>/g, ' ')`: each `<`…first-following-`>` region
becomes a single space; a `<` with no later `>` is kept verbatim. -/
def stripTagsAux : Nat → List Char → List Char
  | 0, cs => cs
  | _ + 1, [] => []
  | fuel + 1, c :: cs =>
    if c == '<' then
      match findGt cs with
      | some i => ' ' :: stripTagsAux fuel (cs.drop (i + 1))
      | none => c :: stripTagsAux fuel cs
    else c :: stripTagsAux fuel cs

def stripTags (cs : List Char) : List Char := stripTagsAux cs.length cs

/-- `.replace(/\s+/g, ' ')`: each maximal whitespace run becomes one space. -/
def collapseWsAux : Nat → List Char → List Char
  | 0, cs => cs
  | _ + 1, [] => []
  | fuel + 1, c :: cs =>
    if isJsWs c then ' ' :: collapseWsAux fuel (cs.dropWhile isJsWs)
    else c :: collapseWsAux fuel cs

def collapseWs (cs : List Char) : List Char := collapseWsAux cs.length cs

/-- `String.prototype.trim`. -/
def jsTrim (cs : List Char) : List Char :=
  ((cs.dropWhile isJsWs).reverse.dropWhile isJsWs).reverse

/-- The `textContent` local of `extractEmails`. -/
def textContentOf (html : List Char) : List Char := jsTrim (collapseWs (stripTags html))

/-! ### The email regexes

`/[a-zA-Z0-9._%+-]+@[a-zA-Z0-9.-]+\.[a-zA-Z]{2,}/g` and the `mailto:`
variant.  `matchLitCi` consumes a literal case-insensitively; the
domain search reproduces the backtracking of
`[a-zA-Z0-9.-]+\.[a-zA-Z]{2,}`: the first quantifier shrinks from its
maximal run until a literal `.` followed by at least two letters (and,
for the `mailto:` form, a closing quote) matches. -/

def matchLitCi : List Char → List Char → Option (List Char)
  | [], cs => some cs
  | _ :: _, [] => none
  | p :: ps, c :: cs => if lcEq c p then matchLitCi ps cs else none

/-- Backtracking search for the domain part, over `rest` (the input
after the `@`).  `k` is the candidate length of the `[a-zA-Z0-9.-]+`
part, tried from the maximal run length downwards.  When `requireQuote`
is set, the overall match must be followed by `["']` (the `mailto:`
regex continues with a closing quote). -/
def emailDomainSearch (requireQuote : Bool) (rest : List Char) : Nat → Option (List Char)
  | 0 => none
  | k' + 1 =>
    let k := k' + 1
    if rest.getD k 'x' == '.' then
      let letters := (rest.drop (k + 1)).takeWhile isAlphaChar
      if 2 ≤ letters.length then
        if requireQuote then
          match rest.drop (k + 1 + letters.length) with
          | q :: _ => if isQuoteChar q then some (rest.take k ++ '.' :: letters)
                      else emailDomainSearch requireQuote rest k'
          | [] => emailDomainSearch requireQuote rest k'
        else some (rest.take k ++ '.' :: letters)
      else emailDomainSearch requireQuote rest k'
    else emailDomainSearch requireQuote rest k'

/-- Attempt of the plain email regex at the head of `cs`; returns the
matched characters (the match is exactly what is consumed). -/
def matchEmailAt (cs : List Char) : Option (List Char) :=
  let lcl := cs.takeWhile isEmailLocalChar
  if lcl.isEmpty then none
  else
    match cs.drop lcl.length with
    | '@' :: rest =>
      let run := rest.takeWhile isEmailDomainChar
      match emailDomainSearch false rest (run.length - 1) with
      | some dm => some (lcl ++ '@' :: dm)
      | none => none
    | _ => none

/-- Attempt of the `mailto:` regex at the head of `cs`; returns the
captured email together with the total number of consumed characters
(`href=`, quote, `mailto:`, email, closing quote). -/
def matchMailtoAt (cs : List Char) : Option (List Char × Nat) :=
  match matchLitCi ['h', 'r', 'e', 'f', '='] cs with
  | none => none
  | some r1 =>
    match r1 with
    | [] => none
    | q :: r2 =>
      if isQuoteChar q then
        match matchLitCi ['m', 'a', 'i', 'l', 't', 'o', ':'] r2 with
        | none => none
        | some r3 =>
          let lcl := r3.takeWhile isEmailLocalChar
          if lcl.isEmpty then none
          else
            match r3.drop lcl.length with
            | '@' :: rest =>
              let run := rest.takeWhile isEmailDomainChar
              match emailDomainSearch true rest (run.length - 1) with
              | some dm => some (lcl ++ '@' :: dm, 13 + lcl.length + 1 + dm.length + 1)
              | none => none
            | _ => none
      else none

/-- Global scan of the plain email regex: try each position, skip past a
match, otherwise advance one character. -/
def scanTextEmailsAux : Nat → List Char → List String
  | 0, _ => []
  | _ + 1, [] => []
  | fuel + 1, c :: cs =>
    match matchEmailAt (c :: cs) with
    | some m =>
      if m.length = 0 then scanTextEmailsAux fuel cs
      else String.mk m :: scanTextEmailsAux fuel ((c :: cs).drop m.length)
    | none => scanTextEmailsAux fuel cs

def scanTextEmails (cs : List Char) : List String := scanTextEmailsAux cs.length cs

/-- Global scan of the `mailto:` regex, collecting the captured group. -/
def scanMailtoEmailsAux : Nat → List Char → List String
  | 0, _ => []
  | _ + 1, [] => []
  | fuel + 1, c :: cs =>
    match matchMailtoAt (c :: cs) with
    | some (m, n) =>
      if n = 0 then scanMailtoEmailsAux fuel cs
      else String.mk m :: scanMailtoEmailsAux fuel ((c :: cs).drop n)
    | none => scanMailtoEmailsAux fuel cs

def scanMailtoEmails (cs : List Char) : List String := scanMailtoEmailsAux cs.length cs

/-- `extractEmails` from `server.js`: the `mailto:` capture results, then
the plain-text matches over the tag-stripped content, deduplicated in
insertion order. -/
def extractEmails (html : String) : List String :=
  jsSetOfList (scanMailtoEmails html.data ++ scanTextEmails (textContentOf html.data))

/-! ### The Facebook URL regex

`/(?:https?:\/\/)?(?:www\.)?(?:facebook\.com|fb\.com)\/(?:profile\.php\?id=\d+|pages\/[a-zA-Z0-9._-]+|groups\/[a-zA-Z0-9._-]+|[a-zA-Z0-9._-]{2,})(?:\/[a-zA-Z0-9._-]+)*/gi`

Each component returns the number of characters it consumes.  The
optional groups need no cross-component backtracking: when the scheme
(resp. `www.`) group succeeds, the following component starts with a
character on which the empty alternative would fail as well. -/

/-- `(?:https?:\/\/)?` — 0, 7 (`http://`) or 8 (`https://`) characters. -/
def schemeOptLen (cs : List Char) : Nat :=
  match matchLitCi ['h', 't', 't', 'p'] cs with
  | none => 0
  | some r =>
    match r with
    | [] => 0
    | c :: r' =>
      if lcEq c 's' && (matchLitCi [':', '/', '/'] r').isSome then 8
      else if (matchLitCi [':', '/', '/'] r).isSome then 7
      else 0

/-- `(?:www\.)?` — 0 or 4 characters. -/
def wwwOptLen (cs : List Char) : Nat :=
  if (matchLitCi ['w', 'w', 'w', '.'] cs).isSome then 4 else 0

/-- `(?:facebook\.com|fb\.com)\/` — 13 or 7 characters, or failure. -/
def hostLen (cs : List Char) : Option Nat :=
  if (matchLitCi ['f', 'a', 'c', 'e', 'b', 'o', 'o', 'k', '.', 'c', 'o', 'm', '/'] cs).isSome
  then some 13
  else if (matchLitCi ['f', 'b', '.', 'c', 'o', 'm', '/'] cs).isSome then some 7
  else none

/-- `profile\.php\?id=\d+` — literal (15 chars) then at least one digit. -/
def tryProfileId (cs : List Char) : Option Nat :=
  match matchLitCi ['p', 'r', 'o', 'f', 'i', 'l', 'e', '.', 'p', 'h', 'p', '?', 'i', 'd', '='] cs with
  | none => none
  | some r =>
    let ds := r.takeWhile isDigitChar
    if 1 ≤ ds.length then some (15 + ds.length) else none

/-- `pages\/[a-zA-Z0-9._-]+`. -/
def tryPagesSeg (cs : List Char) : Option Nat :=
  match matchLitCi ['p', 'a', 'g', 'e', 's', '/'] cs with
  | none => none
  | some r =>
    let seg := r.takeWhile isFbPathChar
    if 1 ≤ seg.length then some (6 + seg.length) else none

/-- `groups\/[a-zA-Z0-9._-]+`. -/
def tryGroupsSeg (cs : List Char) : Option Nat :=
  match matchLitCi ['g', 'r', 'o', 'u', 'p', 's', '/'] cs with
  | none => none
  | some r =>
    let seg := r.takeWhile isFbPathChar
    if 1 ≤ seg.length then some (7 + seg.length) else none

/-- `[a-zA-Z0-9._-]{2,}` — the generic profile-name alternative. -/
def tryGenericSeg (cs : List Char) : Option Nat :=
  let seg := cs.takeWhile isFbPathChar
  if 2 ≤ seg.length then some seg.length else none

/-- The path alternation, tried in the regex's order. -/
def pathAltLen (cs : List Char) : Option Nat :=
  match tryProfileId cs with
  | some n => some n
  | none =>
    match tryPagesSeg cs with
    | some n => some n
    | none =>
      match tryGroupsSeg cs with
      | some n => some n
      | none => tryGenericSeg cs

/-- `(?:\/[a-zA-Z0-9._-]+)*` — greedy: consumes `/`-plus-segment pairs as
long as the segment is nonempty; never consumes a trailing `/`. -/
def extraSegsLenAux : Nat → List Char → Nat
  | 0, _ => 0
  | _ + 1, [] => 0
  | fuel + 1, c :: cs =>
    if c == '/' then
      let seg := cs.takeWhile isFbPathChar
      if 1 ≤ seg.length then 1 + seg.length + extraSegsLenAux fuel (cs.drop seg.length)
      else 0
    else 0

def extraSegsLen (cs : List Char) : Nat := extraSegsLenAux cs.length cs

/-- The input after the optional scheme group. -/
def fbTail1 (cs : List Char) : List Char := cs.drop (schemeOptLen cs)

/-- The input after the optional scheme and `www.` groups. -/
def fbTail2 (cs : List Char) : List Char :=
  (fbTail1 cs).drop (wwwOptLen (fbTail1 cs))

/-- Attempt of the full Facebook URL regex at the head of `cs`; returns
the length of the match. -/
def fbMatchAt (cs : List Char) : Option Nat :=
  match hostLen (fbTail2 cs) with
  | none => none
  | some n3 =>
    match pathAltLen ((fbTail2 cs).drop n3) with
    | none => none
    | some n4 =>
      some (schemeOptLen cs + wwwOptLen (fbTail1 cs) + n3 + n4 +
        extraSegsLen (((fbTail2 cs).drop n3).drop n4))

/-- Global scan of the Facebook URL regex. -/
def scanFbAux : Nat → List Char → List String
  | 0, _ => []
  | _ + 1, [] => []
  | fuel + 1, c :: cs =>
    match fbMatchAt (c :: cs) with
    | some n =>
      if n = 0 then scanFbAux fuel cs
      else String.mk ((c :: cs).take n) :: scanFbAux fuel ((c :: cs).drop n)
    | none => scanFbAux fuel cs

def scanFb (cs : List Char) : List String := scanFbAux cs.length cs

/-! ### The filter and cleanup of `extractFacebookUrls` -/

/-- `.replace(/\/+$/, '')`. -/
def dropTrailingSlashes (cs : List Char) : List Char :=
  (cs.reverse.dropWhile (· == '/')).reverse

/-- `.replace(/\\+/g, '')`. -/
def removeBackslashes (cs : List Char) : List Char :=
  cs.filter (fun c => !(c == backslashChar))

/-- The `cleanUrl` local of the filter: strip `^https?:\/\/` (case
sensitively — no `i` flag on this replace), strip `^www\.`, drop
trailing slashes, drop backslashes. -/
def cleanUrlOf (url : List Char) : List Char :=
  let u1 := if url.take 8 = "https://".data then url.drop 8
            else if url.take 7 = "http://".data then url.drop 7
            else url
  let u2 := if u1.take 4 = "www.".data then u1.drop 4 else u1
  removeBackslashes (dropTrailingSlashes u2)

/-- `cleanUrl.split('/')[1] || ''`. -/
def pathPartOf (cs : List Char) : List Char :=
  (cs.splitOn '/').getD 1 []

def skipPatterns : List String :=
  ["home", "login", "register", "help", "privacy", "terms", "cookies", "settings"]

/-- `cleanUrl.includes('//')`. -/
def hasDoubleSlash : List Char → Bool
  | [] => false
  | [_] => false
  | a :: b :: rest => (a == '/' && b == '/') || hasDoubleSlash (b :: rest)

/-- The filter predicate of `extractFacebookUrls`. -/
def fbFilterKeep (url : List Char) : Bool :=
  let cleanUrl := cleanUrlOf url
  let pathPart := pathPartOf cleanUrl
  if pathPart.length < 2 then false
  else if skipPatterns.contains (String.mk (pathPart.map lowerAscii)) then false
  else if cleanUrl.contains backslashChar || hasDoubleSlash cleanUrl then false
  else true

/-- The final cleanup map: `url.replace(/\\+/g, '').replace(/\/+$/, '')`
(note: no scheme or `www.` stripping here). -/
def finalCleanOf (url : List Char) : List Char :=
  dropTrailingSlashes (removeBackslashes url)

/-- `extractFacebookUrls` from `server.js`. -/
def extractFacebookUrls (text : String) : List String :=
  jsSetOfList
    (((scanFb text.data).filter (fun u => fbFilterKeep u.data)).map
      (fun u => String.mk (finalCleanOf u.data)))

/-! ### Per-page extraction policy (the `requestHandler` branches)

Both the rendered-page branch and the raw-response branch of
`requestHandler` run the same conditional: Facebook extraction happens
only when `extractEmails` returned an empty array for that page. -/

def pageExtract (htmlContent : String) : List String × List String :=
  let emails := extractEmails htmlContent
  let facebookUrls := if emails.length = 0 then extractFacebookUrls htmlContent else []
  (emails, facebookUrls)

/-- One incoming page request of a crawl session. -/
structure PageReq where
  url : String
  content : String
deriving Repr, DecidableEq

/-- Session accumulator: `extractedEmails`, `extractedFacebookUrls`,
`visitedUrls` (as the insertion-ordered list a JS `Set` iterates in). -/
structure SessionAcc where
  extractedEmails : List String
  extractedFacebookUrls : List String
  visitedUrls : List String
deriving Repr, DecidableEq

/-- One `requestHandler` invocation: skip already-visited URLs, record
the URL, extract per the policy, append to the accumulators. -/
def sessionStep (acc : SessionAcc) (r : PageReq) : SessionAcc :=
  if acc.visitedUrls.contains r.url then acc
  else
    { extractedEmails := acc.extractedEmails ++ (pageExtract r.content).1
      extractedFacebookUrls := acc.extractedFacebookUrls ++ (pageExtract r.content).2
      visitedUrls := acc.visitedUrls ++ [r.url] }

def runSession (reqs : List PageReq) : SessionAcc :=
  reqs.foldl sessionStep ⟨[], [], []⟩

/-! ### Job records and `updateJobStatus` -/

inductive JobStatus
  | queued
  | processing
  | done
  | error
deriving Repr, DecidableEq

/-- A row of the `email_scrap_jobs` table; timestamps are abstract
instants (`Option Nat`). -/
structure JobRecord where
  job_id : String
  url : String
  status : JobStatus
  emails : List String
  facebook_urls : List String
  crawled_urls : List String
  pages_crawled : Nat
  error : Option String
  created_at : Option Nat
  started_at : Option Nat
  completed_at : Option Nat
deriving Repr, DecidableEq

/-- The optional-field update objects passed to `updateJobStatus`. -/
structure JobUpdates where
  emails : Option (List String) := none
  facebook_urls : Option (List String) := none
  crawled_urls : Option (List String) := none
  pages_crawled : Option Nat := none
  error : Option String := none
  started_at : Option Nat := none
deriving Repr, DecidableEq

def applyUpdates (j : JobRecord) (u : JobUpdates) : JobRecord :=
  { j with
    emails := u.emails.getD j.emails
    facebook_urls := u.facebook_urls.getD j.facebook_urls
    crawled_urls := u.crawled_urls.getD j.crawled_urls
    pages_crawled := u.pages_crawled.getD j.pages_crawled
    error := u.error.orElse (fun _ => j.error)
    started_at := u.started_at.orElse (fun _ => j.started_at) }

/-- `updateJobStatus(jobId, status, updates)`: sets the status and the
update fields; stamps `started_at` on a transition to `processing`
(unless the caller supplied one) and `completed_at` on a transition to
`done` or `error`.  `now` is the write instant. -/
def updateJobStatus (now : Nat) (j : JobRecord) (status : JobStatus) (u : JobUpdates) :
    JobRecord :=
  let base := applyUpdates { j with status := status } u
  let base := if status = JobStatus.processing ∧ u.started_at = none
              then { base with started_at := some now } else base
  if status = JobStatus.done ∨ status = JobStatus.error
  then { base with completed_at := some now } else base

/-! ### `processJob`

The session either completes (the crawl settles and the accumulated
results are written with `status=done`) or throws (the `catch` block
writes `status=error` with only the error message — the accumulators
gathered before the failure are not part of that update). -/

inductive SessionResult
  | completed (reqs : List PageReq)
  | failed (message : Option String) (reqsBeforeFailure : List PageReq)
deriving Repr, DecidableEq

def processingRecord (now1 : Nat) (j : JobRecord) : JobRecord :=
  updateJobStatus now1 j JobStatus.processing {}

def terminalRecord (now2 : Nat) (j1 : JobRecord) : SessionResult → JobRecord
  | SessionResult.completed reqs =>
    let acc := runSession reqs
    updateJobStatus now2 j1 JobStatus.done
      { emails := some (jsSetOfList acc.extractedEmails)
        facebook_urls := some (jsSetOfList acc.extractedFacebookUrls)
        crawled_urls := some acc.visitedUrls
        pages_crawled := some acc.visitedUrls.length }
  | SessionResult.failed message _ =>
    updateJobStatus now2 j1 JobStatus.error
      { error := some (message.getD "Unknown error occurred") }

/-- The job record after `processJob` finishes. -/
def processJobModel (now1 now2 : Nat) (j : JobRecord) (oc : SessionResult) : JobRecord :=
  terminalRecord now2 (processingRecord now1 j) oc

/-- The successive store states `processJob` writes, in order. -/
def processJobTrace (now1 now2 : Nat) (j : JobRecord) (oc : SessionResult) :
    List JobRecord :=
  [processingRecord now1 j, processJobModel now1 now2 j oc]

/-- The status history of a job across its lifetime. -/
def statusHistory (now1 now2 : Nat) (j : JobRecord) (oc : SessionResult) : List JobStatus :=
  j.status :: (processJobTrace now1 now2 j oc).map JobRecord.status

def statusRank : JobStatus → Nat
  | JobStatus.queued => 0
  | JobStatus.processing => 1
  | JobStatus.done => 2
  | JobStatus.error => 2

/-! ### `JobWorker.processNextBatch`

The active set is modelled as the insertion-ordered list of a JS `Set`.
Launching walks the claimed slice of the batch: an id already active is
skipped, otherwise it is added and its session launched; ids are
deleted only in the settle phase (`finally`, after `await processJob`). -/

def maxConcurrentWorkers : Nat := 4

/-- Launch phase: returns the active set after all adds, and the ids for
which a session was actually launched. -/
def launchPhase (active : List String) : List String → List String × List String
  | [] => (active, [])
  | id :: rest =>
    if active.contains id then launchPhase active rest
    else
      ((launchPhase (active ++ [id]) rest).1, id :: (launchPhase (active ++ [id]) rest).2)

/-- Every intermediate active set during the launch phase (the states an
observer could sample). -/
def launchStates (active : List String) : List String → List (List String)
  | [] => [active]
  | id :: rest =>
    if active.contains id then active :: launchStates active rest
    else active :: launchStates (active ++ [id]) rest

/-- Settle phase: each launched id is deleted after its session settles. -/
def settlePhase (active : List String) (launched : List String) : List String :=
  launched.foldl (fun a id => a.erase id) active

/-- One `processNextBatch` cycle over the fetched queued jobs: only a
`MAX_CONCURRENT_WORKERS`-slice of the batch is claimed. -/
def processNextBatchModel (active : List String) (batch : List String) :
    List String × List String × List (List String) :=
  let claimed := batch.take maxConcurrentWorkers
  (settlePhase (launchPhase active claimed).1 (launchPhase active claimed).2,
   (launchPhase active claimed).2, launchStates active claimed)

/-! ### `GET /job/:jobId` and `getJob` -/

structure HttpResponse where
  statusCode : Nat
  body : String
deriving Repr, DecidableEq

/-- Modelled from the spec: the Job Record Store (an external
collaborator, Supabase) — `get(id)` "fails with `NotFound` if absent".
The store client's single-row select returns `(data, error)`: the found
row with no error, or no row together with a `NotFound`-class error
object (a zero-row `.single()` read is an error outcome, never a null
row with a null error). -/
def storeSelectSingle (store : List JobRecord) (id : String) :
    Option JobRecord × Option String :=
  match store.find? (fun j => j.job_id == id) with
  | some j => (some j, none)
  | none => (none, some "JSON object requested, multiple (or no) rows returned")

/-- `getJob(jobId)`: throws (`Except.error`) whenever the store reports
an error, otherwise returns the row. -/
def getJobModel (store : List JobRecord) (id : String) :
    Except String (Option JobRecord) :=
  match storeSelectSingle store id with
  | (_, some e) => Except.error e
  | (dat, none) => Except.ok dat

/-- The `GET /job/:jobId` handler: a thrown error is caught and answered
with 500; a null row (never produced by the store contract) would be
answered with 404; otherwise 200 with the snapshot. -/
def jobRouteHandler (store : List JobRecord) (id : String) : HttpResponse :=
  match getJobModel store id with
  | Except.error _ => { statusCode := 500, body := "Internal server error" }
  | Except.ok none => { statusCode := 404, body := "Job not found" }
  | Except.ok (some _) => { statusCode := 200, body := "success" }

/-! ## Generic lemmas -/

theorem take_add_decomp {α : Type} : ∀ (a : Nat) (l : List α) (b : Nat),
    l.take (a + b) = l.take a ++ (l.drop a).take b := by
  intro a
  induction a with
  | zero => intro l b; simp
  | succ a ih =>
    intro l b
    cases l with
    | nil => simp
    | cons c t =>
      have : a + 1 + b = (a + b) + 1 := by omega
      rw [this]
      simp only [List.take_succ_cons, List.drop_succ_cons, ih t b, List.cons_append]

theorem take_of_takeWhile_length {α : Type} (p : α → Bool) (l : List α) :
    l.take (l.takeWhile p).length = l.takeWhile p := by
  obtain ⟨t, ht⟩ := List.takeWhile_prefix (l := l) p
  have h := List.take_left (l.takeWhile p) t
  rwa [ht] at h

theorem getLast?_of_all {α : Type} {p : α → Bool} {l : List α} (hne : l ≠ [])
    (hall : ∀ c ∈ l, p c = true) : ∃ c, l.getLast? = some c ∧ p c = true := by
  have hs : l.getLast?.isSome := by simpa using hne
  obtain ⟨c, hc⟩ := Option.isSome_iff_exists.mp hs
  exact ⟨c, hc, hall c (List.mem_of_getLast?_eq_some hc)⟩

theorem mem_jsSetAdd {seen : List String} {x a : String} :
    a ∈ jsSetAdd seen x ↔ a ∈ seen ∨ a = x := by
  unfold jsSetAdd
  split
  · next h =>
    have hx : x ∈ seen := by simpa using h
    constructor
    · exact fun h' => Or.inl h'
    · rintro (h' | rfl) <;> [exact h'; exact hx]
  · simp

theorem nodup_jsSetAdd {seen : List String} {x : String} (h : seen.Nodup) :
    (jsSetAdd seen x).Nodup := by
  unfold jsSetAdd
  split
  · exact h
  · next hc =>
    have hx : x ∉ seen := by simpa using hc
    simpa [List.nodup_append] using ⟨h, hx⟩

theorem mem_foldl_jsSetAdd (xs : List String) (seen : List String) (a : String) :
    a ∈ xs.foldl jsSetAdd seen ↔ a ∈ seen ∨ a ∈ xs := by
  induction xs generalizing seen with
  | nil => simp
  | cons x xs ih =>
    simp only [List.foldl_cons, ih, mem_jsSetAdd, List.mem_cons]
    tauto

theorem nodup_foldl_jsSetAdd (xs : List String) (seen : List String) (h : seen.Nodup) :
    (xs.foldl jsSetAdd seen).Nodup := by
  induction xs generalizing seen with
  | nil => simpa
  | cons x xs ih => exact ih _ (nodup_jsSetAdd h)

theorem mem_jsSetOfList (xs : List String) (a : String) :
    a ∈ jsSetOfList xs ↔ a ∈ xs := by
  simp [jsSetOfList, mem_foldl_jsSetAdd]

theorem nodup_jsSetOfList (xs : List String) : (jsSetOfList xs).Nodup :=
  nodup_foldl_jsSetAdd xs [] List.nodup_nil

/-! ## Sanity evaluations of the embedded extractors -/

example : scanTextEmails "a@x.com".data = ["a@x.com"] := by decide
example : extractEmails "contact a@x.com now" = ["a@x.com"] := by decide
example : extractEmails "facebook.com/acme.page" = [] := by decide
example : extractFacebookUrls "facebook.com/login facebook.com/acme.page" =
    ["facebook.com/acme.page"] := by decide
example : extractFacebookUrls "https://facebook.com/acmepage" =
    ["https://facebook.com/acmepage"] := by decide
example : extractFacebookUrls "facebook.com/a" = [] := by decide
example : extractFacebookUrls "see www.facebook.com/groups/g1/ now" =
    ["www.facebook.com/groups/g1"] := by decide
example : extractFacebookUrls "facebook.com/profile.php?id=123" =
    ["facebook.com/profile.php?id=123"] := by decide

/-! ## Job lifecycle lemmas -/

theorem updateJobStatus_status (now : Nat) (j : JobRecord) (s : JobStatus) (u : JobUpdates) :
    (updateJobStatus now j s u).status = s := by
  unfold updateJobStatus applyUpdates
  dsimp only
  split <;> split <;> rfl

theorem runSession_visited_nodup (reqs : List PageReq) :
    ∀ acc : SessionAcc, acc.visitedUrls.Nodup →
      ((reqs.foldl sessionStep acc).visitedUrls).Nodup := by
  induction reqs with
  | nil => intro acc h; simpa
  | cons r rs ih =>
    intro acc h
    simp only [List.foldl_cons]
    apply ih
    unfold sessionStep
    split
    · exact h
    · next hc =>
      have hnm : r.url ∉ acc.visitedUrls := by simpa using hc
      simpa [List.nodup_append] using ⟨h, hnm⟩

/-- Claim C1, amended: the terminal update on a Crawl Session failure
sets `status=error`, stamps `completedAt`, and writes the error message
— and nothing else: the `emails`, `facebookUrls`, `crawledUrls` and
`pagesCrawled` fields keep the values already stored in the record; the
in-memory partial accumulators are not written. -/
theorem processJob_error_update (now1 now2 : Nat) (j : JobRecord) (msg : Option String)
    (pre : List PageReq) :
    processJobModel now1 now2 j (SessionResult.failed msg pre) =
      { j with
        status := JobStatus.error
        started_at := some now1
        completed_at := some now2
        error := some (msg.getD "Unknown error occurred") } := by
  simp +decide [processJobModel, terminalRecord, processingRecord, updateJobStatus,
    applyUpdates, Option.orElse]

/-- Claim C1, counterexample: a session that fails after having
accumulated the email `a@x.com` ends with an `error` record whose
`emails` field is still empty — the partial results are not written
into the record by the terminal error update. -/
theorem processJob_error_discards_accumulated :
    (runSession [PageReq.mk "https://example.com" "contact a@x.com now"]).extractedEmails =
      ["a@x.com"] ∧
    (processJobModel 1 2
        (JobRecord.mk "job-1" "https://example.com" JobStatus.queued [] [] [] 0 none
          (some 0) none none)
        (SessionResult.failed (some "boom")
          [PageReq.mk "https://example.com" "contact a@x.com now"])).status =
      JobStatus.error ∧
    (processJobModel 1 2
        (JobRecord.mk "job-1" "https://example.com" JobStatus.queued [] [] [] 0 none
          (some 0) none none)
        (SessionResult.failed (some "boom")
          [PageReq.mk "https://example.com" "contact a@x.com now"])).emails = [] := by
  refine ⟨by decide, by decide, by decide⟩

/-- Claim C2: on any single page, if email extraction found at least one
email then Facebook extraction contributes nothing for that page; the
decision is per page, so one job can still accumulate both kinds, as
the two-page run below shows. -/
theorem pageExtract_email_priority :
    (∀ content : String, extractEmails content ≠ [] → (pageExtract content).2 = []) ∧
    (runSession [PageReq.mk "u1" "mail a@x.com or facebook.com/acme.page",
                 PageReq.mk "u2" "facebook.com/acme.page"]).extractedEmails = ["a@x.com"] ∧
    (runSession [PageReq.mk "u1" "mail a@x.com or facebook.com/acme.page",
                 PageReq.mk "u2" "facebook.com/acme.page"]).extractedFacebookUrls =
      ["facebook.com/acme.page"] := by
  refine ⟨?_, by decide, by decide⟩
  intro content h
  unfold pageExtract
  dsimp only
  rw [if_neg]
  simpa [List.length_eq_zero] using h

/-- Witness for C2 at a concrete page whose content contains an email
and also a profile-shaped URL. -/
theorem pageExtract_email_priority_witness :
    (pageExtract "mail a@x.com or facebook.com/acme.page").2 = [] :=
  pageExtract_email_priority.1 "mail a@x.com or facebook.com/acme.page" (by decide)

/-- Claim C6: polling an id that was never submitted.  The store's
single-row read of a missing id is an error outcome, `getJob` rethrows
it, and the route's catch-all answers 500 — the 404 `NotFound` branch
is unreachable, so the outcome is not distinguishable from a store
failure. -/
theorem jobRoute_unknown_id_is_500 :
    jobRouteHandler [] "missing-job" =
      { statusCode := 500, body := "Internal server error" } ∧
    jobRouteHandler [] "missing-job" ≠ { statusCode := 404, body := "Job not found" } := by
  refine ⟨by decide, by decide⟩

/-- Claim C7: a queued job's status history under `processJob` is
exactly `queued, processing, done` or `queued, processing, error`:
strictly rank-increasing (never regresses), a subsequence of the
canonical chain, and `processing` is reached before the terminal
state. -/
theorem statusHistory_monotone (now1 now2 : Nat) (j : JobRecord) (oc : SessionResult)
    (h : j.status = JobStatus.queued) :
    (statusHistory now1 now2 j oc =
        [JobStatus.queued, JobStatus.processing, JobStatus.done] ∨
      statusHistory now1 now2 j oc =
        [JobStatus.queued, JobStatus.processing, JobStatus.error]) ∧
    List.Chain' (fun a b => statusRank a < statusRank b) (statusHistory now1 now2 j oc) ∧
    ((statusHistory now1 now2 j oc).Sublist
        [JobStatus.queued, JobStatus.processing, JobStatus.done] ∨
      (statusHistory now1 now2 j oc).Sublist
        [JobStatus.queued, JobStatus.processing, JobStatus.error]) ∧
    (statusHistory now1 now2 j oc).take 2 = [JobStatus.queued, JobStatus.processing] := by
  have hist : statusHistory now1 now2 j oc =
      [JobStatus.queued, JobStatus.processing, JobStatus.done] ∨
      statusHistory now1 now2 j oc =
      [JobStatus.queued, JobStatus.processing, JobStatus.error] := by
    cases oc with
    | completed reqs =>
      left
      simp [statusHistory, processJobTrace, processJobModel, terminalRecord,
        processingRecord, updateJobStatus_status, h]
    | failed msg pre =>
      right
      simp [statusHistory, processJobTrace, processJobModel, terminalRecord,
        processingRecord, updateJobStatus_status, h]
  refine ⟨hist, ?_, ?_, ?_⟩ <;> rcases hist with h1 | h1 <;> rw [h1]
  · simp [List.chain'_cons, statusRank]
  · simp [List.chain'_cons, statusRank]
  · exact Or.inl (List.Sublist.refl _)
  · exact Or.inr (List.Sublist.refl _)
  · rfl
  · rfl

/-- Witness for C7 on a concrete queued record and a completed session. -/
theorem statusHistory_monotone_witness :
    List.Chain' (fun a b => statusRank a < statusRank b)
      (statusHistory 1 2
        (JobRecord.mk "j1" "u" JobStatus.queued [] [] [] 0 none (some 0) none none)
        (SessionResult.completed [])) :=
  (statusHistory_monotone 1 2
    (JobRecord.mk "j1" "u" JobStatus.queued [] [] [] 0 none (some 0) none none)
    (SessionResult.completed []) rfl).2.1

/-- Claim C9: a job completing as `done` stores a duplicate-free
`crawledUrls` and a `pagesCrawled` equal to its length; the
`requestHandler` guard makes re-processing an already-visited URL a
no-op. -/
theorem processJob_done_crawled (now1 now2 : Nat) (j : JobRecord) (reqs : List PageReq) :
    (processJobModel now1 now2 j (SessionResult.completed reqs)).status = JobStatus.done ∧
    (processJobModel now1 now2 j (SessionResult.completed reqs)).crawled_urls.Nodup ∧
    (processJobModel now1 now2 j (SessionResult.completed reqs)).pages_crawled =
      (processJobModel now1 now2 j (SessionResult.completed reqs)).crawled_urls.length ∧
    (∀ (acc : SessionAcc) (p : PageReq),
      acc.visitedUrls.contains p.url → sessionStep acc p = acc) := by
  have hfields :
      (processJobModel now1 now2 j (SessionResult.completed reqs)).crawled_urls =
        (runSession reqs).visitedUrls ∧
      (processJobModel now1 now2 j (SessionResult.completed reqs)).pages_crawled =
        (runSession reqs).visitedUrls.length := by
    constructor <;>
      simp +decide [processJobModel, terminalRecord, processingRecord, updateJobStatus,
        applyUpdates, Option.orElse]
  refine ⟨updateJobStatus_status _ _ _ _, ?_, ?_, ?_⟩
  · rw [hfields.1]
    exact runSession_visited_nodup reqs ⟨[], [], []⟩ List.nodup_nil
  · rw [hfields.1, hfields.2]
  · intro acc p hc
    unfold sessionStep
    rw [if_pos hc]

/-- Witness for C9: a concrete done-job record, and the visited-guard
making a repeat visit a no-op. -/
theorem processJob_done_crawled_witness :
    sessionStep (SessionAcc.mk [] [] ["https://example.com"])
        (PageReq.mk "https://example.com" "hello") =
      SessionAcc.mk [] [] ["https://example.com"] :=
  (processJob_done_crawled 1 2
      (JobRecord.mk "j2" "https://example.com" JobStatus.queued [] [] [] 0 none
        (some 0) none none)
      []).2.2.2
    (SessionAcc.mk [] [] ["https://example.com"])
    (PageReq.mk "https://example.com" "hello") (by decide)

/-! ## Worker pool lemmas -/

theorem launchPhase_fst (batch : List String) :
    ∀ active, (launchPhase active batch).1 = active ++ (launchPhase active batch).2 := by
  induction batch with
  | nil => intro active; simp [launchPhase]
  | cons id rest ih =>
    intro active
    unfold launchPhase
    split
    · exact ih active
    · dsimp only
      rw [ih (active ++ [id])]
      simp

theorem launchPhase_snd_props (batch : List String) :
    ∀ active, (∀ x ∈ (launchPhase active batch).2, x ∉ active) ∧
      (launchPhase active batch).2.Nodup := by
  induction batch with
  | nil => intro active; simp [launchPhase]
  | cons id rest ih =>
    intro active
    unfold launchPhase
    split
    · exact ih active
    · next hc =>
      have hid : id ∉ active := by simpa using hc
      obtain ⟨h1, h2⟩ := ih (active ++ [id])
      dsimp only
      constructor
      · intro x hx
        rcases List.mem_cons.mp hx with rfl | hx'
        · exact hid
        · exact fun hxa => h1 x hx' (List.mem_append_left _ hxa)
      · refine List.nodup_cons.mpr ⟨fun hmem => ?_, h2⟩
        exact h1 id hmem (by simp)

theorem launchStates_nodup (batch : List String) :
    ∀ active, active.Nodup → ∀ s ∈ launchStates active batch, s.Nodup := by
  induction batch with
  | nil =>
    intro active h s hs
    simp only [launchStates, List.mem_singleton] at hs
    exact hs ▸ h
  | cons id rest ih =>
    intro active h s hs
    by_cases hc : active.contains id
    · simp only [launchStates, if_pos hc, List.mem_cons] at hs
      rcases hs with rfl | hs'
      · exact h
      · exact ih active h s hs'
    · simp only [launchStates, if_neg hc, List.mem_cons] at hs
      rcases hs with rfl | hs'
      · exact h
      · have hid : id ∉ active := by simpa using hc
        have hnd : (active ++ [id]).Nodup := by
          simpa [List.nodup_append] using ⟨h, hid⟩
        exact ih (active ++ [id]) hnd s hs'

theorem launchStates_mono (batch : List String) :
    ∀ active, ∀ s ∈ launchStates active batch, List.Sublist active s := by
  induction batch with
  | nil =>
    intro active s hs
    simp only [launchStates, List.mem_singleton] at hs
    exact hs ▸ List.Sublist.refl _
  | cons id rest ih =>
    intro active s hs
    by_cases hc : active.contains id
    · simp only [launchStates, if_pos hc, List.mem_cons] at hs
      rcases hs with rfl | hs'
      · exact List.Sublist.refl _
      · exact ih active s hs'
    · simp only [launchStates, if_neg hc, List.mem_cons] at hs
      rcases hs with rfl | hs'
      · exact List.Sublist.refl _
      · exact (List.sublist_append_left active [id]).trans (ih (active ++ [id]) s hs')

theorem settlePhase_restore (l : List String) :
    ∀ active : List String, l.Nodup → (∀ x ∈ l, x ∉ active) →
      settlePhase (active ++ l) l = active := by
  induction l with
  | nil => intro active _ _; simp [settlePhase]
  | cons x l' ih =>
    intro active hnd hdis
    unfold settlePhase
    simp only [List.foldl_cons]
    have hx : x ∉ active := hdis x (by simp)
    have h1 : (active ++ x :: l').erase x = active ++ l' := by
      rw [List.erase_append_right _ hx, List.erase_cons_head]
    rw [h1]
    exact ih active (List.nodup_cons.mp hnd).2
      (fun y hy => hdis y (List.mem_cons_of_mem _ hy))

/-- Claim C8: during a `processNextBatch` cycle the active-id set never
holds an id twice (every sampled state is duplicate-free), no session
is launched for an id already active (launched ids are pairwise
distinct and disjoint from the incoming active set), ids are only ever
added during the launch phase (states grow monotonically), and the
settle phase removes exactly the launched ids, restoring the incoming
active set. -/
theorem processNextBatch_invariants (active batch : List String) (h : active.Nodup) :
    (∀ s ∈ (processNextBatchModel active batch).2.2, s.Nodup) ∧
    (processNextBatchModel active batch).2.1.Nodup ∧
    (∀ id ∈ (processNextBatchModel active batch).2.1, id ∉ active) ∧
    (∀ s ∈ (processNextBatchModel active batch).2.2, List.Sublist active s) ∧
    (processNextBatchModel active batch).1 = active := by
  unfold processNextBatchModel
  dsimp only
  obtain ⟨hdis, hnd⟩ := launchPhase_snd_props (batch.take maxConcurrentWorkers) active
  refine ⟨launchStates_nodup _ active h, hnd, hdis, launchStates_mono _ active, ?_⟩
  rw [launchPhase_fst]
  exact settlePhase_restore _ active hnd hdis

/-- Witness for C8 on a concrete active set and batch (the batch
re-offers the already-active id `a`). -/
theorem processNextBatch_invariants_witness :
    (processNextBatchModel ["a"] ["a", "b", "c"]).1 = ["a"] :=
  (processNextBatch_invariants ["a"] ["a", "b", "c"] (by decide)).2.2.2.2

/-! ## Facebook URL output cleanup lemmas -/

theorem getLast?_dropTrailingSlashes (cs : List Char) :
    (dropTrailingSlashes cs).getLast? ≠ some '/' := by
  unfold dropTrailingSlashes
  rw [List.getLast?_reverse]
  cases hh : (cs.reverse.dropWhile (fun c => c == '/')).head? with
  | none => simp [hh]
  | some x =>
    have h := List.head?_dropWhile_not (fun c => c == '/') cs.reverse
    rw [hh] at h
    simp only [hh, ne_eq, Option.some.injEq]
    intro hx
    rw [hx] at h
    simp at h

theorem backslash_not_mem_removeBackslashes (cs : List Char) :
    backslashChar ∉ removeBackslashes cs := by
  intro h
  have h2 := (List.mem_filter.mp h).2
  simp at h2

theorem mem_of_mem_dropTrailingSlashes {c : Char} {cs : List Char}
    (h : c ∈ dropTrailingSlashes cs) : c ∈ cs := by
  unfold dropTrailingSlashes at h
  rw [List.mem_reverse] at h
  exact List.mem_reverse.mp ((List.dropWhile_sublist _).subset h)

theorem finalCleanOf_no_backslash (url : List Char) :
    backslashChar ∉ finalCleanOf url := fun h =>
  backslash_not_mem_removeBackslashes url (mem_of_mem_dropTrailingSlashes h)

/-- Claim C3, counterexample: the map producing the final URLs does not
strip the scheme or a leading `www.` (that stripping happens only on
the filter's internal `cleanUrl` copy), so both survive into the
output. -/
theorem extractFacebookUrls_keeps_scheme_www :
    (extractFacebookUrls "https://facebook.com/acmepage" =
      ["https://facebook.com/acmepage"]) ∧
    (∃ u ∈ extractFacebookUrls "https://facebook.com/acmepage",
      u.data.take 8 = "https://".data) ∧
    (extractFacebookUrls "www.facebook.com/acmepage" = ["www.facebook.com/acmepage"]) ∧
    (∃ u ∈ extractFacebookUrls "www.facebook.com/acmepage",
      u.data.take 4 = "www.".data) := by
  refine ⟨by decide, by decide, by decide, by decide⟩

/-- Claim C3, amended: the output of `extractFacebookUrls` is
deduplicated and each returned URL has its trailing slashes and all
backslashes removed, but the scheme and a leading `www.` are preserved
in the output (they are stripped only on the filter's internal copy). -/
theorem extractFacebookUrls_dedup_trimmed (text : String) :
    (extractFacebookUrls text).Nodup ∧
    ∀ u ∈ extractFacebookUrls text,
      u.data.getLast? ≠ some '/' ∧ backslashChar ∉ u.data := by
  refine ⟨nodup_jsSetOfList _, fun u hu => ?_⟩
  rw [extractFacebookUrls, mem_jsSetOfList] at hu
  obtain ⟨m, _, hmu⟩ := List.mem_map.mp hu
  rw [← hmu]
  exact ⟨getLast?_dropTrailingSlashes _, finalCleanOf_no_backslash _⟩

/-- Witness for the amended C3 on a concrete input and output element. -/
theorem extractFacebookUrls_dedup_trimmed_witness :
    ("www.facebook.com/groups/g1" : String).data.getLast? ≠ some '/' ∧
    backslashChar ∉ ("www.facebook.com/groups/g1" : String).data :=
  (extractFacebookUrls_dedup_trimmed "see www.facebook.com/groups/g1/ now").2
    "www.facebook.com/groups/g1" (by decide)

/-- Claim C4: `extractEmails` returns exactly the deduplicated union of
the `mailto:` capture channel and the plain-text pattern channel over
the tag-stripped, whitespace-collapsed, trimmed content, with no
element appearing twice. -/
theorem extractEmails_union_dedup (content : String) :
    (extractEmails content).Nodup ∧
    ∀ e, e ∈ extractEmails content ↔
      (e ∈ scanMailtoEmails content.data ∨
        e ∈ scanTextEmails (textContentOf content.data)) := by
  refine ⟨nodup_jsSetOfList _, fun e => ?_⟩
  rw [extractEmails, mem_jsSetOfList, List.mem_append]

/-- Claim C5: on the two-candidate page the `login` path is filtered and
`facebook.com/acme.page` survives; in general every output URL comes
from a candidate accepted by the filter, and any candidate whose first
path segment (after cleaning) lowercases to a skip keyword is
rejected by the filter. -/
theorem extractFacebookUrls_keyword_filter :
    (extractFacebookUrls "facebook.com/login facebook.com/acme.page" =
        ["facebook.com/acme.page"] ∧
      ∀ u ∈ extractFacebookUrls "facebook.com/login facebook.com/acme.page",
        pathPartOf (cleanUrlOf u.data) ≠ "login".data) ∧
    (∀ (text u : String), u ∈ extractFacebookUrls text →
      ∃ m ∈ scanFb text.data, fbFilterKeep m.data = true ∧
        u = String.mk (finalCleanOf m.data)) ∧
    (∀ url : List Char,
      skipPatterns.contains (String.mk ((pathPartOf (cleanUrlOf url)).map lowerAscii)) =
        true →
      fbFilterKeep url = false) := by
  refine ⟨⟨by decide, by decide⟩, ?_, ?_⟩
  · intro text u hu
    rw [extractFacebookUrls, mem_jsSetOfList] at hu
    obtain ⟨m, hm, hmu⟩ := List.mem_map.mp hu
    obtain ⟨hm', hkeep⟩ := List.mem_filter.mp hm
    exact ⟨m, hm', hkeep, hmu.symm⟩
  · intro url hskip
    unfold fbFilterKeep
    dsimp only
    rw [hskip]
    simp

/-! ## Characters consumed by the Facebook URL regex

These lemmas establish that a match of the Facebook URL regex contains
no backslash and never ends in `/`, so the final cleanup map
(`finalCleanOf`) is the identity on actual candidates. -/

theorem isAlphaChar_of_isAsciiUpper {c : Char} (h : isAsciiUpper c = true) :
    isAlphaChar c = true := by
  unfold isAsciiUpper at h
  simp only [isAlphaChar, h, Bool.or_true]

theorem fbUrlOk_of_lcEq {c p : Char} (h : lcEq c p = true) (hp : fbUrlOkChar p = true) :
    fbUrlOkChar c = true := by
  by_cases hu : isAsciiUpper c = true
  · have ha := isAlphaChar_of_isAsciiUpper hu
    simp only [fbUrlOkChar, isFbPathChar, ha, Bool.true_or]
  · have hc : lowerAscii c = c := by
      unfold lowerAscii
      simp [hu]
    have hcp : c = p := by
      have := h
      unfold lcEq at this
      rw [hc] at this
      simpa using this
    rw [hcp]
    exact hp

theorem isFbPathChar_of_isDigitChar {c : Char} (h : isDigitChar c = true) :
    isFbPathChar c = true := by
  simp only [isFbPathChar, h, Bool.true_or, Bool.or_true]

theorem fbUrlOk_of_isFbPathChar {c : Char} (h : isFbPathChar c = true) :
    fbUrlOkChar c = true := by
  simp only [fbUrlOkChar, h, Bool.true_or]

theorem matchLitCi_eq (lit : List Char) : ∀ (cs r : List Char),
    matchLitCi lit cs = some r →
    r = cs.drop lit.length ∧ lit.length ≤ cs.length ∧
      ∀ c ∈ cs.take lit.length, ∃ p ∈ lit, lcEq c p = true := by
  induction lit with
  | nil =>
    intro cs r h
    simp only [matchLitCi, Option.some.injEq] at h
    subst h
    simp
  | cons p ps ih =>
    intro cs r h
    cases cs with
    | nil => simp [matchLitCi] at h
    | cons c cs' =>
      unfold matchLitCi at h
      by_cases hc : lcEq c p = true
      · rw [if_pos hc] at h
        obtain ⟨h1, h2, h3⟩ := ih cs' r h
        refine ⟨by simpa using h1, by simpa [Nat.succ_le_succ_iff] using h2, ?_⟩
        intro x hx
        simp only [List.length_cons, List.take_succ_cons, List.mem_cons] at hx
        rcases hx with rfl | hx'
        · exact ⟨p, by simp, hc⟩
        · obtain ⟨q, hq, hlc⟩ := h3 x hx'
          exact ⟨q, List.mem_cons_of_mem _ hq, hlc⟩
      · rw [if_neg hc] at h
        cases h

theorem chars_of_matchLitCi {lit cs r : List Char} (h : matchLitCi lit cs = some r)
    (hlit : ∀ p ∈ lit, fbUrlOkChar p = true) :
    ∀ c ∈ cs.take lit.length, fbUrlOkChar c = true := by
  obtain ⟨_, _, hchars⟩ := matchLitCi_eq lit cs r h
  intro c hc
  obtain ⟨p, hp, hlc⟩ := hchars c hc
  exact fbUrlOk_of_lcEq hlc (hlit p hp)

theorem drop_of_matchLitCi {lit cs r : List Char} (h : matchLitCi lit cs = some r) :
    cs.drop lit.length = r :=
  ((matchLitCi_eq lit cs r h).1).symm

theorem schemeOpt_chars (cs : List Char) :
    ∀ c ∈ cs.take (schemeOptLen cs), fbUrlOkChar c = true := by
  unfold schemeOptLen
  cases hm : matchLitCi ['h', 't', 't', 'p'] cs with
  | none => simp
  | some r =>
    cases r with
    | nil => simp
    | cons c0 r' =>
      dsimp only
      by_cases h8 : (lcEq c0 's' && (matchLitCi [':', '/', '/'] r').isSome) = true
      · rw [if_pos h8]
        obtain ⟨hs, hcolon⟩ := Bool.and_eq_true_iff.mp h8
        obtain ⟨r'', hm2⟩ := Option.isSome_iff_exists.mp hcolon
        have hsplit : cs.take 8 = cs.take 4 ++ (cs.drop 4).take 4 := take_add_decomp 4 cs 4
        intro c hc
        rw [hsplit] at hc
        rcases List.mem_append.mp hc with hc1 | hc2
        · exact chars_of_matchLitCi hm (by decide) c hc1
        · have hd4 : List.drop 4 cs = c0 :: r' := drop_of_matchLitCi hm
          rw [hd4] at hc2
          simp only [List.take_succ_cons, List.mem_cons] at hc2
          rcases hc2 with rfl | hc3
          · exact fbUrlOk_of_lcEq hs (by decide)
          · exact chars_of_matchLitCi hm2 (by decide) c hc3
      · rw [if_neg h8]
        by_cases h7 : (matchLitCi [':', '/', '/'] (c0 :: r')).isSome = true
        · rw [if_pos h7]
          obtain ⟨r'', hm2⟩ := Option.isSome_iff_exists.mp h7
          have hsplit : cs.take 7 = cs.take 4 ++ (cs.drop 4).take 3 := take_add_decomp 4 cs 3
          intro c hc
          rw [hsplit] at hc
          rcases List.mem_append.mp hc with hc1 | hc2
          · exact chars_of_matchLitCi hm (by decide) c hc1
          · have hd4 : List.drop 4 cs = c0 :: r' := drop_of_matchLitCi hm
            rw [hd4] at hc2
            exact chars_of_matchLitCi hm2 (by decide) c hc2
        · rw [if_neg h7]
          simp

theorem wwwOpt_chars (cs : List Char) :
    ∀ c ∈ cs.take (wwwOptLen cs), fbUrlOkChar c = true := by
  unfold wwwOptLen
  by_cases hw : (matchLitCi ['w', 'w', 'w', '.'] cs).isSome = true
  · rw [if_pos hw]
    obtain ⟨r, hm⟩ := Option.isSome_iff_exists.mp hw
    exact chars_of_matchLitCi hm (by decide)
  · rw [if_neg hw]
    simp

theorem host_chars {cs : List Char} {n : Nat} (h : hostLen cs = some n) :
    ∀ c ∈ cs.take n, fbUrlOkChar c = true := by
  unfold hostLen at h
  by_cases h1 :
      (matchLitCi ['f', 'a', 'c', 'e', 'b', 'o', 'o', 'k', '.', 'c', 'o', 'm', '/'] cs).isSome =
        true
  · rw [if_pos h1] at h
    obtain ⟨r, hm⟩ := Option.isSome_iff_exists.mp h1
    have hn : n = 13 := by simpa using h.symm
    subst hn
    exact chars_of_matchLitCi hm (by decide)
  · rw [if_neg h1] at h
    by_cases h2 : (matchLitCi ['f', 'b', '.', 'c', 'o', 'm', '/'] cs).isSome = true
    · rw [if_pos h2] at h
      obtain ⟨r, hm⟩ := Option.isSome_iff_exists.mp h2
      have hn : n = 7 := by simpa using h.symm
      subst hn
      exact chars_of_matchLitCi hm (by decide)
    · rw [if_neg h2] at h
      cases h

theorem tryProfileId_props {cs : List Char} {n : Nat} (h : tryProfileId cs = some n) :
    0 < n ∧ (∀ c ∈ cs.take n, fbUrlOkChar c = true) ∧
    ∃ c, (cs.take n).getLast? = some c ∧ isFbPathChar c = true := by
  unfold tryProfileId at h
  revert h
  cases hm : matchLitCi ['p', 'r', 'o', 'f', 'i', 'l', 'e', '.', 'p', 'h', 'p', '?', 'i', 'd', '='] cs with
  | none => intro h; simp at h
  | some r =>
    intro h
    dsimp only at h
    by_cases hds : 1 ≤ (r.takeWhile isDigitChar).length
    · rw [if_pos hds] at h
      have hn : n = 15 + (r.takeWhile isDigitChar).length := by simpa using h.symm
      subst hn
      have hd : List.drop 15 cs = r := drop_of_matchLitCi hm
      have hsplit : cs.take (15 + (r.takeWhile isDigitChar).length) =
          cs.take 15 ++ (List.drop 15 cs).take (r.takeWhile isDigitChar).length :=
        take_add_decomp 15 cs _
      rw [hd, take_of_takeWhile_length] at hsplit
      have hne : r.takeWhile isDigitChar ≠ [] := by
        intro hz; rw [hz] at hds; simp at hds
      refine ⟨by omega, ?_, ?_⟩
      · intro c hc
        rw [hsplit] at hc
        rcases List.mem_append.mp hc with hc1 | hc2
        · exact chars_of_matchLitCi hm (by decide) c hc1
        · exact fbUrlOk_of_isFbPathChar
            (isFbPathChar_of_isDigitChar (List.mem_takeWhile_imp hc2))
      · obtain ⟨c, hc1, hc2⟩ :=
          getLast?_of_all (p := isDigitChar) hne (fun c hc => List.mem_takeWhile_imp hc)
        refine ⟨c, ?_, isFbPathChar_of_isDigitChar hc2⟩
        rw [hsplit, List.getLast?_append, hc1]
        rfl
    · rw [if_neg hds] at h
      cases h

theorem tryPagesSeg_props {cs : List Char} {n : Nat} (h : tryPagesSeg cs = some n) :
    0 < n ∧ (∀ c ∈ cs.take n, fbUrlOkChar c = true) ∧
    ∃ c, (cs.take n).getLast? = some c ∧ isFbPathChar c = true := by
  unfold tryPagesSeg at h
  revert h
  cases hm : matchLitCi ['p', 'a', 'g', 'e', 's', '/'] cs with
  | none => intro h; simp at h
  | some r =>
    intro h
    dsimp only at h
    by_cases hds : 1 ≤ (r.takeWhile isFbPathChar).length
    · rw [if_pos hds] at h
      have hn : n = 6 + (r.takeWhile isFbPathChar).length := by simpa using h.symm
      subst hn
      have hd : List.drop 6 cs = r := drop_of_matchLitCi hm
      have hsplit : cs.take (6 + (r.takeWhile isFbPathChar).length) =
          cs.take 6 ++ (List.drop 6 cs).take (r.takeWhile isFbPathChar).length :=
        take_add_decomp 6 cs _
      rw [hd, take_of_takeWhile_length] at hsplit
      have hne : r.takeWhile isFbPathChar ≠ [] := by
        intro hz; rw [hz] at hds; simp at hds
      refine ⟨by omega, ?_, ?_⟩
      · intro c hc
        rw [hsplit] at hc
        rcases List.mem_append.mp hc with hc1 | hc2
        · exact chars_of_matchLitCi hm (by decide) c hc1
        · exact fbUrlOk_of_isFbPathChar (List.mem_takeWhile_imp hc2)
      · obtain ⟨c, hc1, hc2⟩ :=
          getLast?_of_all (p := isFbPathChar) hne (fun c hc => List.mem_takeWhile_imp hc)
        refine ⟨c, ?_, hc2⟩
        rw [hsplit, List.getLast?_append, hc1]
        rfl
    · rw [if_neg hds] at h
      cases h

theorem tryGroupsSeg_props {cs : List Char} {n : Nat} (h : tryGroupsSeg cs = some n) :
    0 < n ∧ (∀ c ∈ cs.take n, fbUrlOkChar c = true) ∧
    ∃ c, (cs.take n).getLast? = some c ∧ isFbPathChar c = true := by
  unfold tryGroupsSeg at h
  revert h
  cases hm : matchLitCi ['g', 'r', 'o', 'u', 'p', 's', '/'] cs with
  | none => intro h; simp at h
  | some r =>
    intro h
    dsimp only at h
    by_cases hds : 1 ≤ (r.takeWhile isFbPathChar).length
    · rw [if_pos hds] at h
      have hn : n = 7 + (r.takeWhile isFbPathChar).length := by simpa using h.symm
      subst hn
      have hd : List.drop 7 cs = r := drop_of_matchLitCi hm
      have hsplit : cs.take (7 + (r.takeWhile isFbPathChar).length) =
          cs.take 7 ++ (List.drop 7 cs).take (r.takeWhile isFbPathChar).length :=
        take_add_decomp 7 cs _
      rw [hd, take_of_takeWhile_length] at hsplit
      have hne : r.takeWhile isFbPathChar ≠ [] := by
        intro hz; rw [hz] at hds; simp at hds
      refine ⟨by omega, ?_, ?_⟩
      · intro c hc
        rw [hsplit] at hc
        rcases List.mem_append.mp hc with hc1 | hc2
        · exact chars_of_matchLitCi hm (by decide) c hc1
        · exact fbUrlOk_of_isFbPathChar (List.mem_takeWhile_imp hc2)
      · obtain ⟨c, hc1, hc2⟩ :=
          getLast?_of_all (p := isFbPathChar) hne (fun c hc => List.mem_takeWhile_imp hc)
        refine ⟨c, ?_, hc2⟩
        rw [hsplit, List.getLast?_append, hc1]
        rfl
    · rw [if_neg hds] at h
      cases h

theorem tryGenericSeg_props {cs : List Char} {n : Nat} (h : tryGenericSeg cs = some n) :
    0 < n ∧ (∀ c ∈ cs.take n, fbUrlOkChar c = true) ∧
    ∃ c, (cs.take n).getLast? = some c ∧ isFbPathChar c = true := by
  unfold tryGenericSeg at h
  dsimp only at h
  by_cases hds : 2 ≤ (cs.takeWhile isFbPathChar).length
  · rw [if_pos hds] at h
    have hn : n = (cs.takeWhile isFbPathChar).length := by simpa using h.symm
    subst hn
    have hsplit : cs.take (cs.takeWhile isFbPathChar).length = cs.takeWhile isFbPathChar :=
      take_of_takeWhile_length _ _
    have hne : cs.takeWhile isFbPathChar ≠ [] := by
      intro hz; rw [hz] at hds; simp at hds
    refine ⟨by omega, ?_, ?_⟩
    · intro c hc
      rw [hsplit] at hc
      exact fbUrlOk_of_isFbPathChar (List.mem_takeWhile_imp hc)
    · obtain ⟨c, hc1, hc2⟩ :=
        getLast?_of_all (p := isFbPathChar) hne (fun c hc => List.mem_takeWhile_imp hc)
      exact ⟨c, by rw [hsplit]; exact hc1, hc2⟩
  · rw [if_neg hds] at h
    cases h

theorem pathAltLen_props {cs : List Char} {n : Nat} (h : pathAltLen cs = some n) :
    0 < n ∧ (∀ c ∈ cs.take n, fbUrlOkChar c = true) ∧
    ∃ c, (cs.take n).getLast? = some c ∧ isFbPathChar c = true := by
  unfold pathAltLen at h
  revert h
  cases h1 : tryProfileId cs with
  | some m =>
    intro h
    dsimp only at h
    obtain rfl : m = n := by simpa using h
    exact tryProfileId_props h1
  | none =>
    cases h2 : tryPagesSeg cs with
    | some m =>
      intro h
      dsimp only at h
      obtain rfl : m = n := by simpa using h
      exact tryPagesSeg_props h2
    | none =>
      cases h3 : tryGroupsSeg cs with
      | some m =>
        intro h
        dsimp only at h
        obtain rfl : m = n := by simpa using h
        exact tryGroupsSeg_props h3
      | none =>
        intro h
        dsimp only at h
        exact tryGenericSeg_props h

theorem extraSegsAux_props : ∀ (fuel : Nat) (cs : List Char),
    (∀ c ∈ cs.take (extraSegsLenAux fuel cs), fbUrlOkChar c = true) ∧
    (0 < extraSegsLenAux fuel cs →
      ∃ c, (cs.take (extraSegsLenAux fuel cs)).getLast? = some c ∧
        isFbPathChar c = true) := by
  intro fuel
  induction fuel with
  | zero =>
    intro cs
    refine ⟨by simp [extraSegsLenAux], fun hpos => ?_⟩
    simp [extraSegsLenAux] at hpos
  | succ fuel ih =>
    intro cs
    cases cs with
    | nil =>
      refine ⟨by simp [extraSegsLenAux], fun hpos => ?_⟩
      simp [extraSegsLenAux] at hpos
    | cons c0 cs' =>
      by_cases hc : c0 = '/'
      · subst hc
        by_cases hseg : 1 ≤ (cs'.takeWhile isFbPathChar).length
        · have hunfold : extraSegsLenAux (fuel + 1) ('/' :: cs') =
              1 + (cs'.takeWhile isFbPathChar).length +
                extraSegsLenAux fuel (cs'.drop (cs'.takeWhile isFbPathChar).length) := by
            conv_lhs => rw [extraSegsLenAux]
            rw [if_pos (by simp)]
            dsimp only
            rw [if_pos hseg]
          have htake : ('/' :: cs').take
              (1 + (cs'.takeWhile isFbPathChar).length +
                extraSegsLenAux fuel (cs'.drop (cs'.takeWhile isFbPathChar).length)) =
              '/' :: cs'.take ((cs'.takeWhile isFbPathChar).length +
                extraSegsLenAux fuel (cs'.drop (cs'.takeWhile isFbPathChar).length)) := by
            have h1 : 1 + (cs'.takeWhile isFbPathChar).length +
                extraSegsLenAux fuel (cs'.drop (cs'.takeWhile isFbPathChar).length) =
                ((cs'.takeWhile isFbPathChar).length +
                  extraSegsLenAux fuel (cs'.drop (cs'.takeWhile isFbPathChar).length)) + 1 := by
              omega
            rw [h1, List.take_succ_cons]
          have hsplit : cs'.take ((cs'.takeWhile isFbPathChar).length +
              extraSegsLenAux fuel (cs'.drop (cs'.takeWhile isFbPathChar).length)) =
              cs'.takeWhile isFbPathChar ++
                (cs'.drop (cs'.takeWhile isFbPathChar).length).take
                  (extraSegsLenAux fuel (cs'.drop (cs'.takeWhile isFbPathChar).length)) := by
            have h0 := take_add_decomp (cs'.takeWhile isFbPathChar).length cs'
              (extraSegsLenAux fuel (cs'.drop (cs'.takeWhile isFbPathChar).length))
            rw [take_of_takeWhile_length] at h0
            exact h0
          constructor
          · intro c hcmem
            rw [hunfold, htake] at hcmem
            rcases List.mem_cons.mp hcmem with rfl | hcmem'
            · decide
            · rw [hsplit] at hcmem'
              rcases List.mem_append.mp hcmem' with hc1 | hc2
              · exact fbUrlOk_of_isFbPathChar (List.mem_takeWhile_imp hc1)
              · exact (ih (cs'.drop (cs'.takeWhile isFbPathChar).length)).1 c hc2
          · intro _
            by_cases hE :
                0 < extraSegsLenAux fuel (cs'.drop (cs'.takeWhile isFbPathChar).length)
            · obtain ⟨c, hcl, hcp⟩ :=
                (ih (cs'.drop (cs'.takeWhile isFbPathChar).length)).2 hE
              refine ⟨c, ?_, hcp⟩
              rw [hunfold, htake, hsplit]
              have hview : ('/' :: (cs'.takeWhile isFbPathChar ++
                  (cs'.drop (cs'.takeWhile isFbPathChar).length).take
                    (extraSegsLenAux fuel
                      (cs'.drop (cs'.takeWhile isFbPathChar).length)))) =
                  ['/'] ++ (cs'.takeWhile isFbPathChar ++
                    (cs'.drop (cs'.takeWhile isFbPathChar).length).take
                      (extraSegsLenAux fuel
                        (cs'.drop (cs'.takeWhile isFbPathChar).length))) := rfl
              rw [hview, List.getLast?_append, List.getLast?_append, hcl]
              rfl
            · have hE0 : extraSegsLenAux fuel
                  (cs'.drop (cs'.takeWhile isFbPathChar).length) = 0 := by omega
              have hne : cs'.takeWhile isFbPathChar ≠ [] := by
                intro hz; rw [hz] at hseg; simp at hseg
              obtain ⟨c, hcl, hcp⟩ := getLast?_of_all (p := isFbPathChar) hne
                (fun c hcm => List.mem_takeWhile_imp hcm)
              refine ⟨c, ?_, hcp⟩
              rw [hunfold, htake, hsplit, hE0]
              simp only [List.take_zero, List.append_nil]
              have hview : ('/' :: cs'.takeWhile isFbPathChar) =
                  ['/'] ++ cs'.takeWhile isFbPathChar := rfl
              rw [hview, List.getLast?_append, hcl]
              rfl
        · have hunfold0 : extraSegsLenAux (fuel + 1) ('/' :: cs') = 0 := by
            unfold extraSegsLenAux
            rw [if_pos (by simp)]
            dsimp only
            rw [if_neg hseg]
          refine ⟨by simp [hunfold0], fun hpos => ?_⟩
          rw [hunfold0] at hpos
          simp at hpos
      · have hunfold0 : extraSegsLenAux (fuel + 1) (c0 :: cs') = 0 := by
          unfold extraSegsLenAux
          rw [if_neg (by simpa using hc)]
        refine ⟨by simp [hunfold0], fun hpos => ?_⟩
        rw [hunfold0] at hpos
        simp at hpos

theorem chars_append {A B : List Char}
    (hA : ∀ c ∈ A, fbUrlOkChar c = true) (hB : ∀ c ∈ B, fbUrlOkChar c = true) :
    ∀ c ∈ A ++ B, fbUrlOkChar c = true := by
  intro c hc
  rcases List.mem_append.mp hc with h | h
  · exact hA c h
  · exact hB c h

theorem last_append_right {A B : List Char} {c : Char}
    (h : B.getLast? = some c) : (A ++ B).getLast? = some c := by
  rw [List.getLast?_append, h]
  rfl

theorem fbMatchAt_props {cs : List Char} {n : Nat} (h : fbMatchAt cs = some n) :
    0 < n ∧ (∀ c ∈ cs.take n, fbUrlOkChar c = true) ∧
    ∃ c, (cs.take n).getLast? = some c ∧ isFbPathChar c = true := by
  unfold fbMatchAt at h
  revert h
  cases hh : hostLen (fbTail2 cs) with
  | none => intro h; simp at h
  | some n3 =>
    intro h
    dsimp only at h
    revert h
    cases hp : pathAltLen ((fbTail2 cs).drop n3) with
    | none => intro h; simp at h
    | some n4 =>
      intro h
      dsimp only at h
      have hn : n = schemeOptLen cs + wwwOptLen (fbTail1 cs) + n3 + n4 +
          extraSegsLen (((fbTail2 cs).drop n3).drop n4) := by
        simpa using h.symm
      subst hn
      have hdrop1 : cs.drop (schemeOptLen cs + wwwOptLen (fbTail1 cs)) = fbTail2 cs :=
        (List.drop_drop _ _ _).symm
      have hdrop2 :
          cs.drop (schemeOptLen cs + wwwOptLen (fbTail1 cs) + n3) =
            (fbTail2 cs).drop n3 := by
        have h' := (List.drop_drop n3 (schemeOptLen cs + wwwOptLen (fbTail1 cs)) cs).symm
        rw [hdrop1] at h'
        exact h'
      have hdrop3 :
          cs.drop (schemeOptLen cs + wwwOptLen (fbTail1 cs) + n3 + n4) =
            ((fbTail2 cs).drop n3).drop n4 := by
        have h' :=
          (List.drop_drop n4 (schemeOptLen cs + wwwOptLen (fbTail1 cs) + n3) cs).symm
        rw [hdrop2] at h'
        exact h'
      have hs4 : cs.take (schemeOptLen cs + wwwOptLen (fbTail1 cs)) =
          cs.take (schemeOptLen cs) ++ (fbTail1 cs).take (wwwOptLen (fbTail1 cs)) :=
        take_add_decomp _ _ _
      have hs3 : cs.take (schemeOptLen cs + wwwOptLen (fbTail1 cs) + n3) =
          cs.take (schemeOptLen cs + wwwOptLen (fbTail1 cs)) ++
            (fbTail2 cs).take n3 := by
        have h' := take_add_decomp (schemeOptLen cs + wwwOptLen (fbTail1 cs)) cs n3
        rw [hdrop1] at h'
        exact h'
      have hs2 : cs.take (schemeOptLen cs + wwwOptLen (fbTail1 cs) + n3 + n4) =
          cs.take (schemeOptLen cs + wwwOptLen (fbTail1 cs) + n3) ++
            ((fbTail2 cs).drop n3).take n4 := by
        have h' := take_add_decomp (schemeOptLen cs + wwwOptLen (fbTail1 cs) + n3) cs n4
        rw [hdrop2] at h'
        exact h'
      have hs1 : cs.take (schemeOptLen cs + wwwOptLen (fbTail1 cs) + n3 + n4 +
          extraSegsLen (((fbTail2 cs).drop n3).drop n4)) =
          cs.take (schemeOptLen cs + wwwOptLen (fbTail1 cs) + n3 + n4) ++
            (((fbTail2 cs).drop n3).drop n4).take
              (extraSegsLen (((fbTail2 cs).drop n3).drop n4)) := by
        have h' := take_add_decomp (schemeOptLen cs + wwwOptLen (fbTail1 cs) + n3 + n4) cs
          (extraSegsLen (((fbTail2 cs).drop n3).drop n4))
        rw [hdrop3] at h'
        exact h'
      obtain ⟨hn4pos, hpathchars, hpathlast⟩ := pathAltLen_props hp
      have hextra := extraSegsAux_props (((fbTail2 cs).drop n3).drop n4).length
        (((fbTail2 cs).drop n3).drop n4)
      rw [show ∀ l : List Char, extraSegsLenAux l.length l = extraSegsLen l from
        fun l => rfl] at hextra
      refine ⟨by omega, ?_, ?_⟩
      · rw [hs1, hs2, hs3, hs4]
        exact chars_append
          (chars_append
            (chars_append
              (chars_append (schemeOpt_chars cs) (wwwOpt_chars (fbTail1 cs)))
              (host_chars hh))
            hpathchars)
          hextra.1
      · by_cases hE : 0 < extraSegsLen (((fbTail2 cs).drop n3).drop n4)
        · obtain ⟨c, hcl, hcp⟩ := hextra.2 hE
          refine ⟨c, ?_, hcp⟩
          rw [hs1]
          exact last_append_right hcl
        · have hE0 : extraSegsLen (((fbTail2 cs).drop n3).drop n4) = 0 := by omega
          obtain ⟨c, hcl, hcp⟩ := hpathlast
          refine ⟨c, ?_, hcp⟩
          rw [hs1, hE0]
          simp only [List.take_zero, List.append_nil]
          rw [hs2]
          exact last_append_right hcl

/-- The final cleanup map is the identity on any character list drawn
from the regex's alphabet that ends in a path character. -/
theorem finalCleanOf_of_ok {xs : List Char}
    (hchars : ∀ c ∈ xs, fbUrlOkChar c = true)
    (hlast : ∃ c, xs.getLast? = some c ∧ isFbPathChar c = true) :
    finalCleanOf xs = xs := by
  unfold finalCleanOf
  have hrb : removeBackslashes xs = xs := by
    unfold removeBackslashes
    apply List.filter_eq_self.mpr
    intro c hc
    have hok := hchars c hc
    have hcb : c ≠ backslashChar := by
      intro hrfl
      rw [hrfl] at hok
      revert hok
      decide
    simpa using hcb
  rw [hrb]
  obtain ⟨c, hcl, hcp⟩ := hlast
  have hcs : c ≠ '/' := by
    intro hrfl
    rw [hrfl] at hcp
    revert hcp
    decide
  unfold dropTrailingSlashes
  have hh : xs.reverse.head? = some c := by
    rw [List.head?_reverse]
    exact hcl
  cases hxr : xs.reverse with
  | nil => rw [hxr] at hh; cases hh
  | cons y ys =>
    have hy : y = c := by
      rw [hxr] at hh
      simpa using hh
    have hny : ¬ ((y == '/') = true) := by simp [hy, hcs]
    rw [List.dropWhile_cons, if_neg hny, ← hxr, List.reverse_reverse]

theorem finalCleanOf_fbMatch {cs : List Char} {n : Nat} (h : fbMatchAt cs = some n) :
    finalCleanOf (cs.take n) = cs.take n :=
  finalCleanOf_of_ok (fbMatchAt_props h).2.1 (fbMatchAt_props h).2.2

theorem scanFbAux_zero (cs : List Char) : scanFbAux 0 cs = [] := rfl

theorem scanFbAux_succ_nil (fuel : Nat) : scanFbAux (fuel + 1) [] = [] := rfl

theorem scanFbAux_succ_cons (fuel : Nat) (c : Char) (cs : List Char) :
    scanFbAux (fuel + 1) (c :: cs) =
      match fbMatchAt (c :: cs) with
      | some n =>
        if n = 0 then scanFbAux fuel cs
        else String.mk ((c :: cs).take n) :: scanFbAux fuel ((c :: cs).drop n)
      | none => scanFbAux fuel cs := rfl

theorem mem_scanFbAux {m : String} : ∀ (fuel : Nat) (cs : List Char),
    m ∈ scanFbAux fuel cs →
    ∃ cs' n, fbMatchAt cs' = some n ∧ m = String.mk (cs'.take n) := by
  intro fuel
  induction fuel with
  | zero =>
    intro cs h
    rw [scanFbAux_zero] at h
    exact absurd h (List.not_mem_nil m)
  | succ fuel ih =>
    intro cs h
    cases cs with
    | nil =>
      rw [scanFbAux_succ_nil] at h
      exact absurd h (List.not_mem_nil m)
    | cons c0 cs' =>
      rw [scanFbAux_succ_cons] at h
      revert h
      cases hm : fbMatchAt (c0 :: cs') with
      | none =>
        intro h
        dsimp only at h
        exact ih cs' h
      | some k =>
        intro h
        dsimp only at h
        by_cases hk : k = 0
        · rw [if_pos hk] at h
          exact ih cs' h
        · rw [if_neg hk] at h
          rcases List.mem_cons.mp h with rfl | h2
          · exact ⟨c0 :: cs', k, hm, rfl⟩
          · exact ih _ h2

theorem fbFilterKeep_minlen {url : List Char} (h : fbFilterKeep url = true) :
    2 ≤ (pathPartOf (cleanUrlOf url)).length := by
  unfold fbFilterKeep at h
  dsimp only at h
  by_cases hlen : (pathPartOf (cleanUrlOf url)).length < 2
  · rw [if_pos hlen] at h
    cases h
  · omega

/-- Claim C10: every URL returned by `extractFacebookUrls` has a first
path segment (computed with the scheme and a leading `www.` stripped)
of length at least two; in particular a single-character path such as
`facebook.com/a` produces no output. -/
theorem extractFacebookUrls_min_segment :
    (∀ text u : String, u ∈ extractFacebookUrls text →
      2 ≤ (pathPartOf (cleanUrlOf u.data)).length) ∧
    extractFacebookUrls "facebook.com/a" = [] := by
  refine ⟨?_, by decide⟩
  intro text u hu
  rw [extractFacebookUrls, mem_jsSetOfList] at hu
  obtain ⟨m, hm, hmu⟩ := List.mem_map.mp hu
  obtain ⟨hm', hkeep⟩ := List.mem_filter.mp hm
  have hscan : m ∈ scanFbAux text.data.length text.data := hm'
  obtain ⟨cs', n, hmatch, rfl⟩ := mem_scanFbAux _ _ hscan
  have hfc : finalCleanOf (String.mk (cs'.take n)).data = (String.mk (cs'.take n)).data :=
    finalCleanOf_fbMatch hmatch
  rw [← hmu]
  show 2 ≤ (pathPartOf (cleanUrlOf (finalCleanOf (String.mk (cs'.take n)).data))).length
  rw [hfc]
  exact fbFilterKeep_minlen hkeep

/-- Witness for C10 on a concrete returned URL. -/
theorem extractFacebookUrls_min_segment_witness :
    2 ≤ (pathPartOf (cleanUrlOf ("facebook.com/acme.page" : String).data)).length :=
  extractFacebookUrls_min_segment.1 "facebook.com/acme.page" "facebook.com/acme.page"
    (by decide)

/-- Witness for C5: the surviving candidate of the scenario, and the
rejection of the `login` candidate. -/
theorem extractFacebookUrls_keyword_filter_witness :
    (∃ m ∈ scanFb "facebook.com/acme.page".data, fbFilterKeep m.data = true ∧
      "facebook.com/acme.page" = String.mk (finalCleanOf m.data)) ∧
    fbFilterKeep "facebook.com/login".data = false :=
  ⟨extractFacebookUrls_keyword_filter.2.1 "facebook.com/acme.page" "facebook.com/acme.page"
      (by decide),
   extractFacebookUrls_keyword_filter.2.2 "facebook.com/login".data (by decide)⟩

end EmailExtraction
